import Mathlib

/-!
Shallow embedding of the `cuesheet` library (`src/index.ts`): the cue
construction chain (`cue`, `repeats`, `times`, `until`) and the scheduler
(`cuesheet()`, with `processCues` / `processRepeatingCue`, `seek`, `play`,
`pause`, `destroy`), together with theorems checking the specification's
claims about it.

Modelling conventions:
* Virtual-time values (JS numbers in the source) are rationals.
* The listener registry is keyed by cue identity in the source (a `Map`
  keyed on the cue object); here each registered cue carries a numeric
  identity `id`, and registry/firing state are association lists keyed by
  that id.
* Callback invocation is abstracted into a list of fire events
  `(id, nominal fire time)` per frame; a separate exception-aware model
  (`processCuesE` below) retains the individual callbacks in order to
  examine what happens when one of them throws.
* The `while` loop of `processRepeatingCue` is modelled with an explicit
  fuel argument; `repeatFuel` is an upper bound on the number of
  iterations whenever the interval is positive (the only case in which the
  source loop terminates), proved sufficient below.
-/

namespace Cuesheet

/-- Virtual time, in (fractional) milliseconds. -/
abbrev Time := ℚ

/-- The data fields of a cue object (`Cue` interface in `src/index.ts`):
start time, and the optional repeat interval / count cap / boundary cap. -/
structure Cue where
  startTime : Time
  interval : Option Time
  maxCount : Option Nat
  untilTime : Option Time
deriving DecidableEq, Repr

/-- The factory `cue(startTimeMs)`: a fresh one-shot cue. -/
def cue (startTimeMs : Time) : Cue :=
  ⟨startTimeMs, none, none, none⟩

/-- The stage of a cue in the construction chain. In the source the stage is
which methods the object carries (`repeats` that succeeds / throws; presence
of `times` and `until`); for every chain-constructed object the stage is
determined by the data fields, as computed here. -/
inductive Stage
  | oneShot
  | repeating
  | terminated
deriving DecidableEq, Repr

/-- Stage of a cue, read off from its data fields. -/
def Cue.stage (c : Cue) : Stage :=
  if c.interval.isNone then .oneShot
  else if c.maxCount.isNone ∧ c.untilTime.isNone then .repeating
  else .terminated

/-- The method `repeats(intervalMs)`. On a one-shot cue this builds
`repeatingCue(startTimeMs, intervalMs)`; on a repeating cue the installed
method throws `Already repeating`; on a terminated cue it throws
`Already terminated`. -/
def Cue.repeats (c : Cue) (intervalMs : Time) : Except String Cue :=
  match c.stage with
  | .oneShot => .ok ⟨c.startTime, some intervalMs, none, none⟩
  | .repeating => .error "Already repeating"
  | .terminated => .error "Already terminated"

/-- The method `times(n)`. Present only on repeating-stage objects in the source;
invoking it on any other object is a `TypeError` at the call site (the
property does not exist there). -/
def Cue.times (c : Cue) (n : Nat) : Except String Cue :=
  match c.stage with
  | .repeating => .ok ⟨c.startTime, c.interval, some n, none⟩
  | _ => .error "TypeError: times is not a function"

/-- The method `until(boundary)`. Present only on repeating-stage objects; captures
`boundary.startTime` as a concrete timestamp. Invoking it on any other
object is a `TypeError` at the call site. -/
def Cue.until (c : Cue) (boundary : Cue) : Except String Cue :=
  match c.stage with
  | .repeating => .ok ⟨c.startTime, c.interval, none, some boundary.startTime⟩
  | _ => .error "TypeError: until is not a function"

/-- Per-cue repeat firing state (`{ lastFireTime, count }` in the source). -/
structure RState where
  lastFireTime : Time
  count : Nat
deriving DecidableEq, Repr

/-- A fire event: the registered cue id and the nominal fire time (the
cue's `startTime` for a one-shot, the nominal interval tick for a
repeating cue). One event stands for invoking all callbacks of that cue. -/
structure Event where
  id : Nat
  nominal : Time
deriving DecidableEq, Repr

/-- Scheduler state (the closure variables of `cuesheet()`; the timer id
and last wall-clock tick time are external-driver bookkeeping and carry no
cue-firing information). -/
structure Sched where
  time : Time
  playing : Bool
  listeners : List (Nat × Cue)
  firedOneShots : List Nat
  repeatState : List (Nat × RState)
deriving DecidableEq, Repr

/-- Lookup in the repeat-state association list (`repeatState.get(c)`). -/
def rsGet : List (Nat × RState) → Nat → Option RState
  | [], _ => none
  | (j, st) :: rest, i => if j = i then some st else rsGet rest i

/-- Store in the repeat-state association list (`repeatState.set(c, st)`). -/
def rsSet : List (Nat × RState) → Nat → RState → List (Nat × RState)
  | [], i, st => [(i, st)]
  | (j, old) :: rest, i, st =>
      if j = i then (j, st) :: rest else (j, old) :: rsSet rest i st

/-- The test `nextFire <= endTime`, where a missing `untilTime` is `Infinity`. -/
def leEnd (nf : Time) : Option Time → Bool
  | none => true
  | some e => decide (nf ≤ e)

/-- The break test `c.maxCount != null && state.count >= c.maxCount`. -/
def capReached (cnt : Nat) : Option Nat → Bool
  | none => false
  | some m => decide (m ≤ cnt)

/-- The `while` loop of `processRepeatingCue`, with explicit fuel: while
`nextFire ≤ currentTime` and `nextFire ≤ endTime`, break if the count cap
is reached, otherwise fire at `nextFire`, advance `lastFireTime` and the
count, and continue. Returns the final state and the nominal fire times in
chronological order. -/
def repeatLoop (i : Time) (endT : Option Time) (maxC : Option Nat)
    (currentTime : Time) : Nat → RState → RState × List Time
  | 0, st => (st, [])
  | fuel + 1, st =>
      let nextFire := st.lastFireTime + i
      if nextFire ≤ currentTime ∧ leEnd nextFire endT then
        if capReached st.count maxC then (st, [])
        else
          let out := repeatLoop i endT maxC currentTime fuel ⟨nextFire, st.count + 1⟩
          (out.1, nextFire :: out.2)
      else (st, [])

/-- Fuel sufficient for `repeatLoop` when the interval is positive (the
only case in which the source loop terminates): one unit per possible fire
plus one for the final test. -/
def repeatFuel (i lastFire currentTime : Time) : Nat :=
  if i ≤ 0 then 0 else (⌈(currentTime - lastFire) / i⌉).toNat + 1

/-- The function `processRepeatingCue(c, cbs, prevTime, currentTime)`: ineligible while
`currentTime < startTime`; no further firing once `prevTime ≥ endTime`;
otherwise read the cue's repeat state, seeding it as
`{ lastFireTime: startTime - interval, count: 0 }` on first eligibility,
run the firing loop, and store the updated state. `i` is the cue's
(non-null, by the caller's guard) interval. -/
def processRepeatingCue (c : Cue) (i : Time) (id : Nat)
    (rs : List (Nat × RState)) (prevTime currentTime : Time) :
    List (Nat × RState) × List Time :=
  if currentTime < c.startTime then (rs, [])
  else if (c.untilTime.map (fun e => decide (e ≤ prevTime))).getD false then (rs, [])
  else
    let st := (rsGet rs id).getD ⟨c.startTime - i, 0⟩
    let out := repeatLoop i c.untilTime c.maxCount currentTime
      (repeatFuel i st.lastFireTime currentTime) st
    (rsSet rs id out.1, out.2)

/-- The function `processCues(prevTime, currentTime)`: walk the listener registry in
registration order; repeating cues (non-null `interval`) go through
`processRepeatingCue`; a one-shot fires iff it is not in `firedOneShots`
and `prevTime < startTime ≤ currentTime`, and is then marked fired.
Returns the updated fired set and repeat state, and the fire events of the
frame in order. -/
def processCues (prevTime currentTime : Time) :
    List (Nat × Cue) → List Nat → List (Nat × RState) →
    List Nat × List (Nat × RState) × List Event
  | [], fired, rs => (fired, rs, [])
  | (id, c) :: rest, fired, rs =>
      match c.interval with
      | some i =>
          let pr := processRepeatingCue c i id rs prevTime currentTime
          let out := processCues prevTime currentTime rest fired pr.1
          (out.1, out.2.1, pr.2.map (fun nf => ⟨id, nf⟩) ++ out.2.2)
      | none =>
          if id ∉ fired ∧ prevTime < c.startTime ∧ c.startTime ≤ currentTime then
            let out := processCues prevTime currentTime rest (id :: fired) rs
            (out.1, out.2.1, ⟨id, c.startTime⟩ :: out.2.2)
          else
            processCues prevTime currentTime rest fired rs

/-- One driver time-advance step (the cue-resolving part of `tick`): when
playing, remember `prevTime`, move `time` to `toTime`, and resolve cues
over the span; when paused, `tick` returns immediately. -/
def Sched.advance (s : Sched) (toTime : Time) : Sched × List Event :=
  if s.playing then
    let out := processCues s.time toTime s.listeners s.firedOneShots s.repeatState
    ({ s with time := toTime, firedOneShots := out.1, repeatState := out.2.1 },
      out.2.2)
  else (s, [])

/-- The operation `seek(timeMs)`: set the clock; on a backward seek also clear
`firedOneShots` and `repeatState`. Never fires callbacks. -/
def Sched.seek (s : Sched) (timeMs : Time) : Sched :=
  if timeMs < s.time then
    { s with time := timeMs, firedOneShots := [], repeatState := [] }
  else { s with time := timeMs }

/-- The operation `play()`: start playing (the timer bookkeeping is external). -/
def Sched.play (s : Sched) : Sched :=
  { s with playing := true }

/-- The operation `pause()`: stop playing; `time` is untouched. -/
def Sched.pause (s : Sched) : Sched :=
  { s with playing := false }

/-- The operation `destroy()`: stop playing and clear all listener and firing state. -/
def Sched.destroy (s : Sched) : Sched :=
  { s with playing := false, listeners := [], firedOneShots := [],
           repeatState := [] }

/-- The factory `cuesheet()`: a fresh scheduler at time 0, paused, with no listeners
and no firing state. -/
def cuesheet : Sched :=
  ⟨0, false, [], [], []⟩

/-- The operation `on(c, cb)`: register a cue under identity `id` (`listeners` is keyed
by cue identity in the source; callbacks are abstracted away here, one
registry entry per cue identity). -/
def Sched.on (s : Sched) (id : Nat) (c : Cue) : Sched :=
  if s.listeners.any (fun p => p.1 == id) then s
  else { s with listeners := s.listeners ++ [(id, c)] }

/-- Run a sequence of `advance` steps, collecting each step's events. -/
def runAdv : Sched → List Time → Sched × List (List Event)
  | s, [] => (s, [])
  | s, t :: ts =>
      let st := s.advance t
      let out := runAdv st.1 ts
      (out.1, st.2 :: out.2)

/-- Number of fire events for cue id `i` in an event list. -/
def countId (i : Nat) (evs : List Event) : Nat :=
  (evs.filter (fun e => e.id == i)).length

/-- Effective end of the firing window: `min(currentTime, endTime)`,
where a missing `untilTime` is `Infinity`. -/
def minE (T : Time) : Option Time → Time
  | none => T
  | some e => min T e

/-- How many fires the time window alone would allow from a state whose
`lastFireTime` is `l`: the number of `k ≥ 1` with `l + k * i ≤ M`. -/
def nWindow (i l M : Time) : Nat :=
  (⌊(M - l) / i⌋).toNat

/-- How many fires `repeatLoop` performs from state `st`: the window
allowance, additionally clipped by the count cap when present. -/
def nIter (i : Time) (endT : Option Time) (maxC : Option Nat) (T : Time)
    (st : RState) : Nat :=
  match maxC with
  | none => nWindow i st.lastFireTime (minE T endT)
  | some m => min (nWindow i st.lastFireTime (minE T endT)) (m - st.count)

/-- The state `processRepeatingCue` starts its loop from: the stored state,
or the seed `{ lastFireTime: startTime - interval, count: 0 }`. -/
def seedSt (c : Cue) (i : Time) (rs : List (Nat × RState)) (id : Nat) : RState :=
  (rsGet rs id).getD ⟨c.startTime - i, 0⟩

/-- The fire count recorded for `id` (0 when no state is stored). -/
def rsCount (rs : List (Nat × RState)) (id : Nat) : Nat :=
  ((rsGet rs id).map RState.count).getD 0

/-- The public scheduler operations, as driven by a caller: the play /
pause / seek controls and the driver's time advance. Only `advance` can
fire callbacks; the others produce no events. -/
inductive Act
  | play
  | pause
  | advance (toTime : Time)
  | seek (timeMs : Time)
deriving DecidableEq, Repr

/-- Apply one scheduler operation, collecting the fire events it causes. -/
def applyAct (s : Sched) : Act → Sched × List Event
  | .play => (s.play, [])
  | .pause => (s.pause, [])
  | .advance T => s.advance T
  | .seek t => (s.seek t, [])

/-- Run a sequence of scheduler operations. -/
def run : Sched → List Act → Sched × List Event
  | s, [] => (s, [])
  | s, a :: rest =>
      let st := applyAct s a
      let out := run st.1 rest
      (out.1, st.2 ++ out.2)

/-- Validity of an operation sequence against the driver contract: time
advances are forward (the driver feeds non-decreasing clock values) and
seeks target non-negative times. -/
def ValidActs : Sched → List Act → Prop
  | _, [] => True
  | s, a :: rest =>
      (match a with
       | Act.advance T => s.time ≤ T
       | Act.seek t => 0 ≤ t
       | _ => True) ∧ ValidActs (applyAct s a).1 rest

/-- An operation sequence containing no backward seek: every seek in it
targets the current or a later virtual time. -/
def NoBackwardSeek : Sched → List Act → Prop
  | _, [] => True
  | s, a :: rest =>
      (match a with
       | Act.seek t => s.time ≤ t
       | _ => True) ∧ NoBackwardSeek (applyAct s a).1 rest

/-- Exception-aware model of callback invocation (`cbs.forEach(cb => cb())`
in the source): each callback either returns normally (`true`) or throws
(`false`). Returns how many callbacks were invoked and whether one threw;
`forEach` propagates the first exception, so invocation stops there. -/
def runCbs : List Bool → Nat × Bool
  | [] => (0, false)
  | ok :: rest =>
      if ok then
        let out := runCbs rest
        (out.1 + 1, out.2)
      else (1, true)

/-- Exception-aware firing loop of `processRepeatingCue`: `lastFireTime`
and `count` are updated before the callbacks run; a throwing callback
aborts the loop (and, above it, the frame), leaving the already-updated
state in place. Events record `(nominal time, callbacks invoked)`. -/
def repeatLoopE (i : Time) (endT : Option Time) (maxC : Option Nat)
    (cbs : List Bool) (currentTime : Time) :
    Nat → RState → RState × List (Time × Nat) × Bool
  | 0, st => (st, [], false)
  | fuel + 1, st =>
      let nextFire := st.lastFireTime + i
      if nextFire ≤ currentTime ∧ leEnd nextFire endT then
        if capReached st.count maxC then (st, [], false)
        else
          let inv := runCbs cbs
          if inv.2 then (⟨nextFire, st.count + 1⟩, [(nextFire, inv.1)], true)
          else
            let out := repeatLoopE i endT maxC cbs currentTime fuel
              ⟨nextFire, st.count + 1⟩
            (out.1, (nextFire, inv.1) :: out.2.1, out.2.2)
      else (st, [], false)

/-- Exception-aware `processRepeatingCue`. -/
def processRepeatingCueE (c : Cue) (i : Time) (id : Nat) (cbs : List Bool)
    (rs : List (Nat × RState)) (prevTime currentTime : Time) :
    List (Nat × RState) × List (Time × Nat) × Bool :=
  if currentTime < c.startTime then (rs, [], false)
  else if (c.untilTime.map (fun e => decide (e ≤ prevTime))).getD false then
    (rs, [], false)
  else
    let st := (rsGet rs id).getD ⟨c.startTime - i, 0⟩
    let out := repeatLoopE i c.untilTime c.maxCount cbs currentTime
      (repeatFuel i st.lastFireTime currentTime) st
    (rsSet rs id out.1, out.2.1, out.2.2)

/-- Exception-aware `processCues`: the registry carries each cue's callback
list; a one-shot is added to `firedOneShots` before its callbacks run; an
exception from any callback propagates out of the `for..of` loop, so the
remaining cues of the frame are not processed. Events record
`(id, nominal time, callbacks invoked)`; the flag reports the escaped
exception. -/
def processCuesE (prevTime currentTime : Time) :
    List (Nat × Cue × List Bool) → List Nat → List (Nat × RState) →
    List Nat × List (Nat × RState) × List (Nat × Time × Nat) × Bool
  | [], fired, rs => (fired, rs, [], false)
  | (id, c, cbs) :: rest, fired, rs =>
      match c.interval with
      | some i =>
          let pr := processRepeatingCueE c i id cbs rs prevTime currentTime
          if pr.2.2 then
            (fired, pr.1, pr.2.1.map (fun p => (id, p.1, p.2)), true)
          else
            let out := processCuesE prevTime currentTime rest fired pr.1
            (out.1, out.2.1,
              pr.2.1.map (fun p => (id, p.1, p.2)) ++ out.2.2.1, out.2.2.2)
      | none =>
          if id ∉ fired ∧ prevTime < c.startTime ∧ c.startTime ≤ currentTime then
            let inv := runCbs cbs
            if inv.2 then (id :: fired, rs, [(id, c.startTime, inv.1)], true)
            else
              let out := processCuesE prevTime currentTime rest (id :: fired) rs
              (out.1, out.2.1, (id, c.startTime, inv.1) :: out.2.2.1, out.2.2.2)
          else
            processCuesE prevTime currentTime rest fired rs

/-- The cue values constructible through the public chain: `cue`, then
optionally `repeats`, then optionally `times` or `until` (with any cue as
the boundary argument). -/
inductive Chained : Cue → Prop
  | base (t : Time) : Chained (cue t)
  | rep (c : Cue) (i : Time) (c' : Cue) :
      Chained c → c.repeats i = .ok c' → Chained c'
  | count (c : Cue) (n : Nat) (c' : Cue) :
      Chained c → c.times n = .ok c' → Chained c'
  | boundary (c b c' : Cue) :
      Chained c → c.until b = .ok c' → Chained c'

theorem minE_le (T : Time) (endT : Option Time) : minE T endT ≤ T := by
  cases endT with
  | none => exact le_refl T
  | some e => exact min_le_left T e

theorem loopCond_iff (i T l : Time) (endT : Option Time) :
    (l + i ≤ T ∧ leEnd (l + i) endT = true) ↔ l + i ≤ minE T endT := by
  cases endT with
  | none => simp [leEnd, minE]
  | some e => simp [leEnd, minE, le_min_iff]

theorem nWindow_pos_iff (i l M : Time) (hi : 0 < i) :
    1 ≤ nWindow i l M ↔ l + i ≤ M := by
  unfold nWindow
  have h : 1 ≤ (⌊(M - l) / i⌋).toNat ↔ (1 : ℤ) ≤ ⌊(M - l) / i⌋ := by omega
  rw [h, Int.le_floor]
  push_cast
  rw [le_div_iff hi]
  constructor <;> intro h' <;> linarith

theorem nWindow_shift (i l M : Time) (hi : 0 < i) :
    nWindow i (l + i) M = nWindow i l M - 1 := by
  unfold nWindow
  have h1 : (M - (l + i)) / i = (M - l) / i - 1 := by
    field_simp
    ring
  rw [h1]
  rw [Int.floor_sub_one]
  omega

/-- Closed form for the `processRepeatingCue` firing loop: with a positive
interval and enough fuel, starting from state `st` it fires
`n = nIter i endT maxC T st` times, at the nominal instants
`lastFireTime + i, …, lastFireTime + n * i`, leaving the state advanced
accordingly. -/
theorem repeatLoop_eq (i : Time) (endT : Option Time) (maxC : Option Nat)
    (T : Time) (hi : 0 < i) :
    ∀ (fuel : Nat) (st : RState),
      nWindow i st.lastFireTime (minE T endT) < fuel →
      repeatLoop i endT maxC T fuel st =
        (⟨st.lastFireTime + (nIter i endT maxC T st : ℚ) * i,
          st.count + nIter i endT maxC T st⟩,
         (List.range (nIter i endT maxC T st)).map
           (fun (k : ℕ) => st.lastFireTime + ((k : ℚ) + 1) * i)) := by
  intro fuel
  induction fuel with
  | zero => intro st h; omega
  | succ fuel ih =>
      intro st h
      obtain ⟨l, cnt⟩ := st
      simp only [repeatLoop]
      by_cases hc : l + i ≤ minE T endT
      · -- the loop condition holds
        rw [if_pos ((loopCond_iff i T l endT).mpr hc)]
        have hw1 : 1 ≤ nWindow i l (minE T endT) :=
          (nWindow_pos_iff i l (minE T endT) hi).mpr hc
        by_cases hcap : capReached cnt maxC = true
        · -- count cap already reached: break, zero fires
          rw [if_pos hcap]
          obtain ⟨m, hm⟩ : ∃ m, maxC = some m := by
            cases maxC with
            | none => simp [capReached] at hcap
            | some m => exact ⟨m, rfl⟩
          have hmc : m ≤ cnt := by
            have := hcap
            rw [hm] at this
            simpa [capReached] using this
          have hn : nIter i endT maxC T ⟨l, cnt⟩ = 0 := by
            rw [hm]
            simp only [nIter]
            omega
          rw [hn]
          simp
        · rw [if_neg hcap]
          have hrec := ih ⟨l + i, cnt + 1⟩ (by
            simp only [RState.lastFireTime] at h ⊢
            rw [nWindow_shift i l (minE T endT) hi]
            omega)
          simp only at hrec
          rw [hrec]
          have hn1 : 1 ≤ nIter i endT maxC T ⟨l, cnt⟩ := by
            cases maxC with
            | none => simpa [nIter] using hw1
            | some m =>
                have hmc : cnt < m := by
                  by_contra hle
                  exact hcap (by simp only [capReached]; simp; omega)
                simp only [nIter]
                omega
          have hn' : nIter i endT maxC T ⟨l + i, cnt + 1⟩ =
              nIter i endT maxC T ⟨l, cnt⟩ - 1 := by
            cases maxC with
            | none =>
                simp only [nIter]
                exact nWindow_shift i l (minE T endT) hi
            | some m =>
                simp only [nIter]
                rw [nWindow_shift i l (minE T endT) hi]
                omega
          rw [hn']
          obtain ⟨n', hn''⟩ : ∃ n', nIter i endT maxC T ⟨l, cnt⟩ = n' + 1 :=
            ⟨nIter i endT maxC T ⟨l, cnt⟩ - 1, by omega⟩
          rw [hn'']
          simp only [Nat.add_sub_cancel, Prod.mk.injEq, RState.mk.injEq]
          refine ⟨⟨by push_cast; ring, by omega⟩, ?_⟩
          rw [List.range_succ_eq_map]
          simp only [List.map_cons, List.map_map, List.cons.injEq]
          refine ⟨by norm_num, ?_⟩
          apply List.map_congr_left
          intro k _
          simp only [Function.comp_apply]
          push_cast
          ring
      · -- the loop condition fails: zero fires
        rw [if_neg (by rw [loopCond_iff i T l endT]; exact hc)]
        have hw0 : nWindow i l (minE T endT) = 0 := by
          by_contra h0
          exact hc ((nWindow_pos_iff i l (minE T endT) hi).mp (by omega))
        have hn : nIter i endT maxC T ⟨l, cnt⟩ = 0 := by
          cases maxC with
          | none => simpa [nIter] using hw0
          | some m => simp [nIter, hw0]
        rw [hn]
        simp

/-- The fuel supplied by `processRepeatingCue` exceeds the number of
iterations whenever the interval is positive. -/
theorem repeatFuel_spec (i l T : Time) (endT : Option Time) (hi : 0 < i) :
    nWindow i l (minE T endT) < repeatFuel i l T := by
  unfold repeatFuel nWindow
  rw [if_neg (not_le.mpr hi)]
  have h1 : (minE T endT - l) / i ≤ (T - l) / i :=
    (div_le_div_right hi).mpr (by linarith [minE_le T endT])
  have h2 : ⌊(minE T endT - l) / i⌋ ≤ ⌈(T - l) / i⌉ :=
    le_trans (Int.floor_le_floor h1) (Int.floor_le_ceil _)
  omega

theorem rsGet_rsSet_self (rs : List (Nat × RState)) (id : Nat) (st : RState) :
    rsGet (rsSet rs id st) id = some st := by
  induction rs with
  | nil => simp [rsSet, rsGet]
  | cons p rest ih =>
      obtain ⟨j, old⟩ := p
      by_cases h : j = id
      · simp [rsSet, rsGet, h]
      · simp [rsSet, rsGet, h, ih]

theorem rsGet_rsSet_ne (rs : List (Nat × RState)) (id j : Nat) (st : RState)
    (h : j ≠ id) : rsGet (rsSet rs id st) j = rsGet rs j := by
  induction rs with
  | nil => simp [rsSet, rsGet, Ne.symm h]
  | cons p rest ih =>
      obtain ⟨j', old⟩ := p
      by_cases h' : j' = id
      · subst h'
        simp [rsSet, rsGet, Ne.symm h]
      · simp only [rsSet, if_neg h']
        by_cases h'' : j' = j
        · simp [rsGet, h'']
        · simp [rsGet, h'', ih]

theorem seedSt_count (c : Cue) (i : Time) (rs : List (Nat × RState))
    (id : Nat) : (seedSt c i rs id).count = rsCount rs id := by
  unfold seedSt rsCount
  cases rsGet rs id <;> simp

theorem rsCount_rsSet_self (rs : List (Nat × RState)) (id : Nat)
    (st : RState) : rsCount (rsSet rs id st) id = st.count := by
  unfold rsCount
  rw [rsGet_rsSet_self]
  rfl

/-- Every fire the window count allows lands at or before the window end. -/
theorem nWindow_bound (i l M : Time) (hi : 0 < i) (k : ℕ)
    (hk : k < nWindow i l M) : l + ((k : ℚ) + 1) * i ≤ M := by
  unfold nWindow at hk
  have h1 : ((k : ℤ) + 1) ≤ ⌊(M - l) / i⌋ := by omega
  have h2 : ((k : ℚ) + 1) ≤ (M - l) / i := by
    have := Int.le_floor.mp h1
    push_cast at this
    convert this using 2
  rw [le_div_iff hi] at h2
  linarith

/-- The backward guard `prevTime >= endTime` of `processRepeatingCue`,
restated: it is off exactly when `prevTime` is before every boundary. -/
theorem untilGuard_false (u : Option Time) (prev : Time)
    (h : ∀ e, u = some e → prev < e) :
    (u.map (fun e => decide (e ≤ prev))).getD false = false := by
  cases u with
  | none => rfl
  | some e => simpa using h e rfl

/-- Closed form of `processRepeatingCue` when it reaches its loop: starting
from the stored-or-seeded state it fires `nIter` times at consecutive
nominal instants and stores the advanced state. -/
theorem processRepeatingCue_run (c : Cue) (i : Time) (id : Nat)
    (rs : List (Nat × RState)) (prev T : Time) (hi : 0 < i)
    (h1 : ¬ T < c.startTime)
    (h2 : ∀ e, c.untilTime = some e → prev < e) :
    processRepeatingCue c i id rs prev T =
      (rsSet rs id
        ⟨(seedSt c i rs id).lastFireTime +
            (nIter i c.untilTime c.maxCount T (seedSt c i rs id) : ℚ) * i,
          (seedSt c i rs id).count + nIter i c.untilTime c.maxCount T (seedSt c i rs id)⟩,
       (List.range (nIter i c.untilTime c.maxCount T (seedSt c i rs id))).map
         (fun (k : ℕ) => (seedSt c i rs id).lastFireTime + ((k : ℚ) + 1) * i)) := by
  unfold processRepeatingCue
  rw [if_neg h1, untilGuard_false c.untilTime prev h2]
  simp only [Bool.false_eq_true, if_false]
  rw [show (rsGet rs id).getD ⟨c.startTime - i, 0⟩ = seedSt c i rs id from rfl]
  rw [repeatLoop_eq i c.untilTime c.maxCount T hi _ _
    (repeatFuel_spec i (seedSt c i rs id).lastFireTime T c.untilTime hi)]

/-- The function `processRepeatingCue` leaves entries of other cues alone. -/
theorem processRepeatingCue_frame (c : Cue) (i : Time) (id j : Nat)
    (rs : List (Nat × RState)) (prev T : Time) (h : j ≠ id) :
    rsGet (processRepeatingCue c i id rs prev T).1 j = rsGet rs j := by
  unfold processRepeatingCue
  by_cases h1 : T < c.startTime
  · rw [if_pos h1]
  · rw [if_neg h1]
    by_cases h2 : (c.untilTime.map (fun e => decide (e ≤ prev))).getD false = true
    · rw [if_pos h2]
    · rw [if_neg h2]
      exact rsGet_rsSet_ne _ id j _ h

/-- The fires of one `processRepeatingCue` call are the recorded count
increase, and the count never decreases. -/
theorem processRepeatingCue_count (c : Cue) (i : Time) (id : Nat)
    (rs : List (Nat × RState)) (prev T : Time) (hi : 0 < i) :
    (processRepeatingCue c i id rs prev T).2.length =
      rsCount (processRepeatingCue c i id rs prev T).1 id - rsCount rs id ∧
    rsCount rs id ≤ rsCount (processRepeatingCue c i id rs prev T).1 id := by
  by_cases h1 : T < c.startTime
  · unfold processRepeatingCue
    rw [if_pos h1]
    simp
  · by_cases h2 : ∀ e, c.untilTime = some e → prev < e
    · rw [processRepeatingCue_run c i id rs prev T hi h1 h2]
      simp only [List.length_map, List.length_range, rsCount_rsSet_self]
      rw [seedSt_count c i rs id]
      omega
    · unfold processRepeatingCue
      rw [if_neg h1]
      push_neg at h2
      obtain ⟨e, he, hpe⟩ := h2
      rw [he]
      simp only [Option.map_some, Option.getD_some]
      rw [if_pos (by simpa using hpe)]
      simp

/-- With a count cap `m`, the recorded count never passes `m`. -/
theorem processRepeatingCue_cap (c : Cue) (i : Time) (id : Nat)
    (rs : List (Nat × RState)) (prev T : Time) (hi : 0 < i) (m : Nat)
    (hm : c.maxCount = some m) :
    rsCount (processRepeatingCue c i id rs prev T).1 id ≤
      max (rsCount rs id) m := by
  by_cases h1 : T < c.startTime
  · unfold processRepeatingCue
    rw [if_pos h1]
    simp
  · by_cases h2 : ∀ e, c.untilTime = some e → prev < e
    · rw [processRepeatingCue_run c i id rs prev T hi h1 h2]
      rw [hm]
      simp only [rsCount_rsSet_self, nIter]
      rw [seedSt_count c i rs id]
      omega
    · unfold processRepeatingCue
      rw [if_neg h1]
      push_neg at h2
      obtain ⟨e, he, hpe⟩ := h2
      rw [he]
      simp only [Option.map_some, Option.getD_some]
      rw [if_pos (by simpa using hpe)]
      simp

/-- With a boundary cap `e`, every nominal fire time is at most `e`. -/
theorem processRepeatingCue_until (c : Cue) (i : Time) (id : Nat)
    (rs : List (Nat × RState)) (prev T : Time) (hi : 0 < i) (e : Time)
    (he : c.untilTime = some e) :
    ∀ nf ∈ (processRepeatingCue c i id rs prev T).2, nf ≤ e := by
  by_cases h1 : T < c.startTime
  · unfold processRepeatingCue
    rw [if_pos h1]
    simp
  · by_cases h2 : ∀ e', c.untilTime = some e' → prev < e'
    · rw [processRepeatingCue_run c i id rs prev T hi h1 h2]
      intro nf hnf
      simp only [List.mem_map, List.mem_range] at hnf
      obtain ⟨k, hk, rfl⟩ := hnf
      have hb := nWindow_bound i (seedSt c i rs id).lastFireTime
        (minE T c.untilTime) hi k (by
          have : nIter i c.untilTime c.maxCount T (seedSt c i rs id) ≤
              nWindow i (seedSt c i rs id).lastFireTime (minE T c.untilTime) := by
            cases hmc : c.maxCount <;> simp [nIter, hmc]
          omega)
      rw [he] at hb
      calc (seedSt c i rs id).lastFireTime + ((k : ℚ) + 1) * i
          ≤ min T e := hb
        _ ≤ e := min_le_right T e
    · unfold processRepeatingCue
      rw [if_neg h1]
      push_neg at h2
      obtain ⟨e', he', hpe⟩ := h2
      rw [he']
      simp only [Option.map_some, Option.getD_some]
      rw [if_pos (by simpa using hpe)]
      simp

theorem countId_append (j : Nat) (a b : List Event) :
    countId j (a ++ b) = countId j a + countId j b := by
  simp [countId, List.filter_append]

theorem countId_cons (j : Nat) (ev : Event) (evs : List Event) :
    countId j (ev :: evs) = (if ev.id = j then 1 else 0) + countId j evs := by
  by_cases h : ev.id = j
  · simp [countId, List.filter_cons, h, Nat.add_comm]
  · simp [countId, List.filter_cons, h]

theorem countId_mapMk (j id : Nat) (fires : List Time) :
    countId j (fires.map (fun nf => Event.mk id nf)) =
      if id = j then fires.length else 0 := by
  induction fires with
  | nil => simp [countId]
  | cons nf rest ih =>
      simp only [List.map_cons, countId_cons, ih]
      by_cases h : id = j <;> simp [h, Nat.add_comm]

theorem countId_zero (j : Nat) (evs : List Event)
    (h : ∀ ev ∈ evs, ev.id ≠ j) : countId j evs = 0 := by
  induction evs with
  | nil => simp [countId]
  | cons ev rest ih =>
      rw [countId_cons, if_neg (h ev (by simp)), ih fun e he => h e (by simp [he])]

/-- Frame property of `processCues`: a cue id not in the registry gets no
events, keeps its fired-flag, and keeps its repeat state. -/
theorem processCues_frame (prev T : Time) (j : Nat) :
    ∀ (L : List (Nat × Cue)) (fired : List Nat) (rs : List (Nat × RState)),
    j ∉ L.map Prod.fst →
    (∀ ev ∈ (processCues prev T L fired rs).2.2, ev.id ≠ j) ∧
    ((j ∈ (processCues prev T L fired rs).1) ↔ j ∈ fired) ∧
    rsGet (processCues prev T L fired rs).2.1 j = rsGet rs j := by
  intro L
  induction L with
  | nil => intro fired rs _; simp [processCues]
  | cons p rest ih =>
      obtain ⟨id, c⟩ := p
      intro fired rs hnot
      have hne : id ≠ j := by
        intro h
        exact hnot (by simp [h])
      have hrest : j ∉ rest.map Prod.fst := by
        intro h
        exact hnot (by simp [h])
      simp only [processCues]
      cases hint : c.interval with
      | some i =>
          obtain ⟨hev, hfd, hrs⟩ := ih fired (processRepeatingCue c i id rs prev T).1 hrest
          refine ⟨?_, hfd, ?_⟩
          · intro ev hev'
            rcases List.mem_append.mp hev' with hl | hr
            · obtain ⟨nf, _, rfl⟩ := List.mem_map.mp hl
              exact hne
            · exact hev ev hr
          · rw [hrs]
            exact processRepeatingCue_frame c i id j rs prev T (Ne.symm hne)
      | none =>
          by_cases hcond : id ∉ fired ∧ prev < c.startTime ∧ c.startTime ≤ T
          · rw [if_pos hcond]
            obtain ⟨hev, hfd, hrs⟩ := ih (id :: fired) rs hrest
            refine ⟨?_, ?_, hrs⟩
            · intro ev hev'
              rcases List.mem_cons.mp hev' with hl | hr
              · rw [hl]
                exact hne
              · exact hev ev hr
            · rw [hfd]
              simp [Ne.symm hne]
          · rw [if_neg hcond]
            exact ih fired rs hrest

end Cuesheet

namespace Cuesheet

/-- One-shot accounting for a single `processCues` frame: the cue fires
exactly when it is unfired and the frame crosses its start time, and its
fired-flag afterwards records exactly that it had fired before or fired
now. -/
theorem processCues_oneShot (prev T : Time) (id : Nat) (c : Cue)
    (hint : c.interval = none) :
    ∀ (L : List (Nat × Cue)) (fired : List Nat) (rs : List (Nat × RState)),
    (id, c) ∈ L → (L.map Prod.fst).Nodup →
    countId id (processCues prev T L fired rs).2.2 =
      (if id ∉ fired ∧ prev < c.startTime ∧ c.startTime ≤ T then 1 else 0) ∧
    ((id ∈ (processCues prev T L fired rs).1) ↔
      id ∈ fired ∨ (prev < c.startTime ∧ c.startTime ≤ T)) := by
  intro L
  induction L with
  | nil => intro fired rs hmem _; simp at hmem
  | cons p rest ih =>
      obtain ⟨id', c'⟩ := p
      intro fired rs hmem hnodup
      rcases List.mem_cons.mp hmem with hhead | htail
      · -- the cue under scrutiny is the head of the registry
        obtain ⟨rfl, rfl⟩ := Prod.mk.injEq .. ▸ hhead
        have hcons : (id :: rest.map Prod.fst).Nodup := by
          simpa only [List.map_cons] using hnodup
        have hrest : id ∉ rest.map Prod.fst := (List.nodup_cons.mp hcons).1
        simp only [processCues, hint]
        by_cases hcond : id ∉ fired ∧ prev < c.startTime ∧ c.startTime ≤ T
        · rw [if_pos hcond]
          obtain ⟨hev, hfd, _⟩ := processCues_frame prev T id rest (id :: fired) rs hrest
          constructor
          · rw [countId_cons, if_pos rfl, countId_zero id _ hev, if_pos hcond]
          · rw [hfd]
            simp [hcond.2]
        · rw [if_neg hcond]
          obtain ⟨hev, hfd, _⟩ := processCues_frame prev T id rest fired rs hrest
          constructor
          · rw [countId_zero id _ hev, if_neg hcond]
          · rw [hfd]
            by_cases hf : id ∈ fired
            · simp [hf]
            · simp only [hf, false_or]
              constructor
              · intro hcontra; exact absurd hcontra (by simp)
              · intro hc'; exact absurd ⟨hf, hc'⟩ hcond
      · -- the cue under scrutiny is further down the registry
        have hcons : (id' :: rest.map Prod.fst).Nodup := by
          simpa only [List.map_cons] using hnodup
        have hid : id' ≠ id := by
          intro h
          subst h
          exact (List.nodup_cons.mp hcons).1 (List.mem_map.mpr ⟨(id', c), htail, rfl⟩)
        have hnodup' : (rest.map Prod.fst).Nodup := (List.nodup_cons.mp hcons).2
        simp only [processCues]
        cases hint' : c'.interval with
        | some i' =>
            obtain ⟨h1, h2⟩ := ih fired (processRepeatingCue c' i' id' rs prev T).1 htail hnodup'
            constructor
            · rw [countId_append, countId_mapMk, if_neg hid, h1, Nat.zero_add]
            · exact h2
        | none =>
            by_cases hcond' : id' ∉ fired ∧ prev < c'.startTime ∧ c'.startTime ≤ T
            · rw [if_pos hcond']
              obtain ⟨h1, h2⟩ := ih (id' :: fired) rs htail hnodup'
              have hmemiff : id ∈ id' :: fired ↔ id ∈ fired := by
                simp [Ne.symm hid]
              constructor
              · rw [countId_cons, if_neg hid, h1]
                simp only [hmemiff]
                omega
              · rw [h2, hmemiff]
            · rw [if_neg hcond']
              exact ih fired rs htail hnodup'

/-- Repeating-cue accounting for a single `processCues` frame: its events
are exactly the recorded count increase, the count never decreases, a
count cap is never exceeded, and with a boundary cap no event lies past
the boundary. -/
theorem processCues_repeat (prev T : Time) (id : Nat) (c : Cue) (i : Time)
    (hint : c.interval = some i) (hi : 0 < i) :
    ∀ (L : List (Nat × Cue)) (fired : List Nat) (rs : List (Nat × RState)),
    (id, c) ∈ L → (L.map Prod.fst).Nodup →
    countId id (processCues prev T L fired rs).2.2 =
      rsCount (processCues prev T L fired rs).2.1 id - rsCount rs id ∧
    rsCount rs id ≤ rsCount (processCues prev T L fired rs).2.1 id ∧
    (∀ m, c.maxCount = some m →
      rsCount (processCues prev T L fired rs).2.1 id ≤ max (rsCount rs id) m) ∧
    (∀ e, c.untilTime = some e →
      ∀ ev ∈ (processCues prev T L fired rs).2.2, ev.id = id →
        ev.nominal ≤ e) := by
  intro L
  induction L with
  | nil => intro fired rs hmem _; simp at hmem
  | cons p rest ih =>
      obtain ⟨id', c'⟩ := p
      intro fired rs hmem hnodup
      rcases List.mem_cons.mp hmem with hhead | htail
      · obtain ⟨rfl, rfl⟩ := Prod.mk.injEq .. ▸ hhead
        have hcons : (id :: rest.map Prod.fst).Nodup := by
          simpa only [List.map_cons] using hnodup
        have hrest : id ∉ rest.map Prod.fst := (List.nodup_cons.mp hcons).1
        simp only [processCues, hint]
        obtain ⟨hev, _, hrs⟩ :=
          processCues_frame prev T id rest fired (processRepeatingCue c i id rs prev T).1 hrest
        have hrsc : rsCount (processCues prev T rest fired
            (processRepeatingCue c i id rs prev T).1).2.1 id =
            rsCount (processRepeatingCue c i id rs prev T).1 id := by
          unfold rsCount
          rw [hrs]
        obtain ⟨hlen, hmono⟩ := processRepeatingCue_count c i id rs prev T hi
        refine ⟨?_, ?_, ?_, ?_⟩
        · rw [countId_append, countId_mapMk, if_pos rfl,
            countId_zero id _ hev, hrsc, hlen, Nat.add_zero]
        · rw [hrsc]; exact hmono
        · intro m hm
          rw [hrsc]
          exact processRepeatingCue_cap c i id rs prev T hi m hm
        · intro e he ev hevmem hevid
          rcases List.mem_append.mp hevmem with hl | hr
          · obtain ⟨nf, hnf, rfl⟩ := List.mem_map.mp hl
            exact processRepeatingCue_until c i id rs prev T hi e he nf hnf
          · exact absurd hevid (hev ev hr)
      · have hcons : (id' :: rest.map Prod.fst).Nodup := by
          simpa only [List.map_cons] using hnodup
        have hid : id' ≠ id := by
          intro h
          subst h
          exact (List.nodup_cons.mp hcons).1 (List.mem_map.mpr ⟨(id', c), htail, rfl⟩)
        have hnodup' : (rest.map Prod.fst).Nodup := (List.nodup_cons.mp hcons).2
        simp only [processCues]
        cases hint' : c'.interval with
        | some i' =>
            have hrseq : rsCount (processRepeatingCue c' i' id' rs prev T).1 id =
                rsCount rs id := by
              unfold rsCount
              rw [processRepeatingCue_frame c' i' id' id rs prev T (Ne.symm hid)]
            obtain ⟨h1, h2, h3, h4⟩ :=
              ih fired (processRepeatingCue c' i' id' rs prev T).1 htail hnodup'
            refine ⟨?_, ?_, ?_, ?_⟩
            · rw [countId_append, countId_mapMk, if_neg hid, h1, hrseq, Nat.zero_add]
            · rw [← hrseq]; exact h2
            · intro m hm
              rw [← hrseq]
              exact h3 m hm
            · intro e he ev hevmem hevid
              rcases List.mem_append.mp hevmem with hl | hr
              · obtain ⟨nf, _, rfl⟩ := List.mem_map.mp hl
                exact absurd hevid hid
              · exact h4 e he ev hr hevid
        | none =>
            by_cases hcond' : id' ∉ fired ∧ prev < c'.startTime ∧ c'.startTime ≤ T
            · rw [if_pos hcond']
              obtain ⟨h1, h2, h3, h4⟩ := ih (id' :: fired) rs htail hnodup'
              refine ⟨?_, h2, h3, ?_⟩
              · rw [countId_cons, if_neg hid, h1, Nat.zero_add]
              · intro e he ev hevmem hevid
                rcases List.mem_cons.mp hevmem with hl | hr
                · rw [hl] at hevid
                  exact absurd hevid hid
                · exact h4 e he ev hr hevid
            · rw [if_neg hcond']
              exact ih fired rs htail hnodup'

end Cuesheet

namespace Cuesheet

theorem advance_time_of_playing (s : Sched) (T : Time)
    (h : s.playing = true) : (s.advance T).1.time = T := by
  unfold Sched.advance
  rw [if_pos h]

theorem advance_fired_of_playing (s : Sched) (T : Time)
    (h : s.playing = true) : (s.advance T).1.firedOneShots =
      (processCues s.time T s.listeners s.firedOneShots s.repeatState).1 := by
  unfold Sched.advance
  rw [if_pos h]

theorem advance_rs_of_playing (s : Sched) (T : Time)
    (h : s.playing = true) : (s.advance T).1.repeatState =
      (processCues s.time T s.listeners s.firedOneShots s.repeatState).2.1 := by
  unfold Sched.advance
  rw [if_pos h]

theorem advance_events_of_playing (s : Sched) (T : Time)
    (h : s.playing = true) : (s.advance T).2 =
      (processCues s.time T s.listeners s.firedOneShots s.repeatState).2.2 := by
  unfold Sched.advance
  rw [if_pos h]

theorem advance_listeners (s : Sched) (T : Time) :
    (s.advance T).1.listeners = s.listeners := by
  unfold Sched.advance
  by_cases h : s.playing = true
  · rw [if_pos h]
  · rw [if_neg h]

theorem advance_playing (s : Sched) (T : Time) :
    (s.advance T).1.playing = s.playing := by
  unfold Sched.advance
  by_cases h : s.playing = true
  · rw [if_pos h]
  · rw [if_neg h]

/-- Per-step fire counts of a one-shot cue along a monotone advance run:
step `j` (from `p` to `T`) yields one fire exactly when `p < t ≤ T`,
provided the fired-flag initially agrees with `t ≤ time`. -/
theorem runAdv_oneShot_zip (id : Nat) (c : Cue) (t : Time)
    (hint : c.interval = none) (hts : c.startTime = t) :
    ∀ (ts : List Time) (s : Sched),
    s.playing = true → (id, c) ∈ s.listeners →
    (s.listeners.map Prod.fst).Nodup →
    (id ∈ s.firedOneShots ↔ t ≤ s.time) →
    List.Chain (· ≤ ·) s.time ts →
    ((runAdv s ts).2.map (countId id)) =
      List.zipWith (fun p T => if p < t ∧ t ≤ T then 1 else 0)
        (s.time :: ts) ts := by
  intro ts
  induction ts with
  | nil => intro s _ _ _ _ _; simp [runAdv]
  | cons T rest ih =>
      intro s hplay hmem hnodup hinv hchain
      obtain ⟨hle, hchain'⟩ := List.chain_cons.mp hchain
      obtain ⟨hcnt, hfd⟩ := processCues_oneShot s.time T id c hint
        s.listeners s.firedOneShots s.repeatState hmem hnodup
      simp only [runAdv, List.map_cons, List.zipWith_cons_cons]
      have hstep : countId id (s.advance T).2 =
          if s.time < t ∧ t ≤ T then 1 else 0 := by
        rw [advance_events_of_playing s T hplay, hcnt, hts]
        by_cases hst : s.time < t
        · have : id ∉ s.firedOneShots := fun hin =>
            absurd (hinv.mp hin) (not_le.mpr hst)
          by_cases htT : t ≤ T
          · rw [if_pos ⟨this, hst, htT⟩, if_pos ⟨hst, htT⟩]
          · rw [if_neg (by tauto), if_neg (by tauto)]
        · have : id ∈ s.firedOneShots := hinv.mpr (not_lt.mp hst)
          rw [if_neg (by tauto), if_neg (by tauto)]
      have hres := ih (s.advance T).1
        (by rw [advance_playing, hplay])
        (by rw [advance_listeners]; exact hmem)
        (by rw [advance_listeners]; exact hnodup)
        (by
          rw [advance_fired_of_playing s T hplay,
            advance_time_of_playing s T hplay, hfd, hts]
          constructor
          · rintro (hf | ⟨_, h2⟩)
            · exact le_trans (hinv.mp hf) hle
            · exact h2
          · intro hT
            by_cases hst : t ≤ s.time
            · exact Or.inl (hinv.mpr hst)
            · exact Or.inr ⟨not_le.mp hst, hT⟩)
        (by rw [advance_time_of_playing s T hplay]; exact hchain')
      rw [advance_time_of_playing s T hplay] at hres
      rw [hstep, hres]

/-- Once the clock is at or past `t`, a monotone run yields no further
crossing steps. -/
theorem zipCross_sum_zero (t : Time) :
    ∀ (ts : List Time) (p : Time), t ≤ p → List.Chain (· ≤ ·) p ts →
    (List.zipWith (fun p T => if p < t ∧ t ≤ T then 1 else 0)
      (p :: ts) ts).sum = 0 := by
  intro ts
  induction ts with
  | nil => intro p _ _; simp
  | cons T rest ih =>
      intro p hp hchain
      obtain ⟨hle, hchain'⟩ := List.chain_cons.mp hchain
      simp only [List.zipWith_cons_cons, List.sum_cons]
      rw [if_neg (by rintro ⟨h1, _⟩; exact absurd hp (not_le.mpr h1)),
        ih T (le_trans hp hle) hchain']

/-- A monotone run that starts before `t` and reaches it crosses exactly
once. -/
theorem zipCross_sum_one (t : Time) :
    ∀ (ts : List Time) (p : Time), p < t → List.Chain (· ≤ ·) p ts →
    (∃ T ∈ ts, t ≤ T) →
    (List.zipWith (fun p T => if p < t ∧ t ≤ T then 1 else 0)
      (p :: ts) ts).sum = 1 := by
  intro ts
  induction ts with
  | nil => intro p _ _ hex; simp at hex
  | cons T rest ih =>
      intro p hp hchain hex
      obtain ⟨hle, hchain'⟩ := List.chain_cons.mp hchain
      simp only [List.zipWith_cons_cons, List.sum_cons]
      by_cases hT : t ≤ T
      · rw [if_pos ⟨hp, hT⟩, zipCross_sum_zero t rest T hT hchain']
      · rw [if_neg (by tauto)]
        obtain ⟨W, hW, hWt⟩ := hex
        rcases List.mem_cons.mp hW with rfl | hW'
        · exact absurd hWt hT
        · rw [ih T (not_le.mp hT) hchain' ⟨W, hW', hWt⟩]

end Cuesheet

namespace Cuesheet

theorem advance_not_playing (s : Sched) (T : Time)
    (h : ¬ s.playing = true) : s.advance T = (s, []) := by
  unfold Sched.advance
  rw [if_neg h]

/-- Repeating-cue accounting along any sequence of advance steps: total
fires equal the recorded count increase, the count never decreases, a
count cap is never exceeded, and with a boundary cap no event lies past
the boundary. -/
theorem runAdv_repeat_count (id : Nat) (c : Cue) (i : Time)
    (hint : c.interval = some i) (hi : 0 < i) :
    ∀ (ts : List Time) (s : Sched),
    (id, c) ∈ s.listeners → (s.listeners.map Prod.fst).Nodup →
    (((runAdv s ts).2.map (countId id)).sum =
      rsCount (runAdv s ts).1.repeatState id - rsCount s.repeatState id) ∧
    rsCount s.repeatState id ≤ rsCount (runAdv s ts).1.repeatState id ∧
    (∀ m, c.maxCount = some m →
      rsCount (runAdv s ts).1.repeatState id ≤
        max (rsCount s.repeatState id) m) ∧
    (∀ e, c.untilTime = some e →
      ∀ evs ∈ (runAdv s ts).2, ∀ ev ∈ evs, ev.id = id → ev.nominal ≤ e) := by
  intro ts
  induction ts with
  | nil =>
      intro s _ _
      refine ⟨by simp [runAdv], le_refl _, fun m _ => by simp [runAdv], ?_⟩
      intro e _ evs hevs
      simp [runAdv] at hevs
  | cons T rest ih =>
      intro s hmem hnodup
      simp only [runAdv, List.map_cons, List.sum_cons]
      by_cases hplay : s.playing = true
      · obtain ⟨h1, h2, h3, h4⟩ := processCues_repeat s.time T id c i hint hi
          s.listeners s.firedOneShots s.repeatState hmem hnodup
        obtain ⟨g1, g2, g3, g4⟩ := ih (s.advance T).1
          (by rw [advance_listeners]; exact hmem)
          (by rw [advance_listeners]; exact hnodup)
        rw [advance_rs_of_playing s T hplay] at g1 g2 g3
        rw [advance_events_of_playing s T hplay]
        refine ⟨?_, ?_, ?_, ?_⟩
        · rw [h1, g1]
          omega
        · exact le_trans h2 g2
        · intro m hm
          have := h3 m hm
          have := g3 m hm
          omega
        · intro e he evs hevs ev hev hevid
          rcases List.mem_cons.mp hevs with rfl | hrest
          · exact h4 e he ev hev hevid
          · exact g4 e he evs hrest ev hev hevid
      · rw [advance_not_playing s T hplay]
        obtain ⟨g1, g2, g3, g4⟩ := ih s hmem hnodup
        refine ⟨by rw [g1]; simp [countId], g2, g3, ?_⟩
        intro e he evs hevs ev hev hevid
        rcases List.mem_cons.mp hevs with rfl | hrest
        · simp at hev
        · exact g4 e he evs hrest ev hev hevid

end Cuesheet

namespace Cuesheet

theorem stage_eq_repeating (c : Cue) :
    c.stage = Stage.repeating ↔
      c.interval.isNone = false ∧ c.maxCount = none ∧ c.untilTime = none := by
  unfold Cue.stage
  by_cases h1 : c.interval.isNone = true
  · rw [if_pos h1]
    simp [h1]
  · rw [if_neg h1]
    by_cases h2 : c.maxCount.isNone ∧ c.untilTime.isNone
    · rw [if_pos h2]
      simp only [Bool.not_eq_true] at h1
      simp [h1, Option.isNone_iff_eq_none.mp h2.1, Option.isNone_iff_eq_none.mp h2.2]
    · rw [if_neg h2]
      simp only [Bool.not_eq_true] at h1
      constructor
      · intro hcontra; exact absurd hcontra (by simp)
      · rintro ⟨_, hmc, hut⟩
        exact absurd ⟨by simp [hmc], by simp [hut]⟩ h2

/-- C1: for a one-shot cue with `startTime = t` subscribed (and not yet
fired) on a playing scheduler positioned before `t`, any monotone
non-decreasing sequence of advance steps that reaches or passes `t` fires
its callbacks exactly once in total, and the per-step fire counts show it
fires precisely at the step from `p` to `T` with `p < t` and `t ≤ T` —
the step at which the virtual time first reaches or passes `t`. -/
theorem oneShot_fires_exactly_once
    (s : Sched) (id : Nat) (c : Cue) (t : Time) (ts : List Time)
    (hplay : s.playing = true)
    (hmem : (id, c) ∈ s.listeners)
    (hnodup : (s.listeners.map Prod.fst).Nodup)
    (hint : c.interval = none)
    (hstart : c.startTime = t)
    (hunfired : id ∉ s.firedOneShots)
    (hbefore : s.time < t)
    (hchain : List.Chain (· ≤ ·) s.time ts)
    (hreach : ∃ T ∈ ts, t ≤ T) :
    (((runAdv s ts).2.map (countId id)).sum = 1) ∧
    ((runAdv s ts).2.map (countId id) =
      List.zipWith (fun p T => if p < t ∧ t ≤ T then 1 else 0)
        (s.time :: ts) ts) := by
  have hinv : id ∈ s.firedOneShots ↔ t ≤ s.time :=
    ⟨fun h => absurd h hunfired, fun h => absurd hbefore (not_lt.mpr h)⟩
  have hzip := runAdv_oneShot_zip id c t hint hstart ts s hplay hmem hnodup
    hinv hchain
  exact ⟨by rw [hzip]; exact zipCross_sum_one t ts s.time hbefore hchain hreach,
    hzip⟩

theorem oneShot_fires_exactly_once_witness :
    (((runAdv ⟨0, true, [(0, cue 100)], [], []⟩ [50, 150, 300]).2.map
        (countId 0)).sum = 1) ∧
    ((runAdv ⟨0, true, [(0, cue 100)], [], []⟩ [50, 150, 300]).2.map
        (countId 0) =
      List.zipWith (fun p T => if p < (100 : Time) ∧ (100 : Time) ≤ T then 1 else 0)
        ((0 : Time) :: [50, 150, 300]) [50, 150, 300]) :=
  oneShot_fires_exactly_once ⟨0, true, [(0, cue 100)], [], []⟩ 0 (cue 100) 100
    [50, 150, 300] rfl (by simp) (by simp) rfl rfl (by simp) (by norm_num)
    (by norm_num [List.chain_cons]) ⟨150, by norm_num, by norm_num⟩

/-- C8: calling `repeats` on an already-repeating cue or on an
already-terminated cue fails synchronously with the corresponding error,
and calling `times` or `until` on an already-terminated cue fails
synchronously (the method does not exist on such objects), for every such
cue and argument. -/
theorem chain_misuse_raises :
    (∀ (c : Cue) (i : Time), c.stage = Stage.repeating →
      c.repeats i = Except.error "Already repeating") ∧
    (∀ (c : Cue) (i : Time), c.stage = Stage.terminated →
      c.repeats i = Except.error "Already terminated") ∧
    (∀ (c : Cue) (n : Nat), c.stage = Stage.terminated →
      ∃ msg, c.times n = Except.error msg) ∧
    (∀ (c b : Cue), c.stage = Stage.terminated →
      ∃ msg, c.until b = Except.error msg) := by
  refine ⟨?_, ?_, ?_, ?_⟩
  · intro c i h
    simp [Cue.repeats, h]
  · intro c i h
    simp [Cue.repeats, h]
  · intro c n h
    exact ⟨"TypeError: times is not a function", by simp [Cue.times, h]⟩
  · intro c b h
    exact ⟨"TypeError: until is not a function", by simp [Cue.until, h]⟩

theorem chain_misuse_raises_witness :
    (⟨0, some 1, none, none⟩ : Cue).repeats 2 =
      Except.error "Already repeating" ∧
    (⟨0, some 1, some 2, none⟩ : Cue).repeats 2 =
      Except.error "Already terminated" ∧
    (∃ msg, (⟨0, some 1, some 2, none⟩ : Cue).times 3 = Except.error msg) ∧
    (∃ msg, (⟨0, some 1, some 2, none⟩ : Cue).until (cue 5) =
      Except.error msg) :=
  ⟨chain_misuse_raises.1 ⟨0, some 1, none, none⟩ 2 rfl,
   chain_misuse_raises.2.1 ⟨0, some 1, some 2, none⟩ 2 rfl,
   chain_misuse_raises.2.2.1 ⟨0, some 1, some 2, none⟩ 3 rfl,
   chain_misuse_raises.2.2.2 ⟨0, some 1, some 2, none⟩ (cue 5) rfl⟩

/-- C9: every cue constructible through the public chain has at most one
terminating condition (`maxCount` and `untilTime` are never both present),
a non-repeating cue carries no `maxCount` or `untilTime`, and a terminated
cue was produced by `times` or `until` from a chain-built repeating-stage
cue whose `startTime` and `interval` it carries unchanged. -/
theorem chain_cue_invariant (c : Cue) (h : Chained c) :
    (¬(c.maxCount.isSome = true ∧ c.untilTime.isSome = true)) ∧
    (c.interval = none → c.maxCount = none ∧ c.untilTime = none) ∧
    ((c.maxCount.isSome = true ∨ c.untilTime.isSome = true) →
      ∃ c₀ : Cue, Chained c₀ ∧ c₀.stage = Stage.repeating ∧
        c₀.startTime = c.startTime ∧ c₀.interval = c.interval ∧
        ((∃ n, c₀.times n = Except.ok c) ∨
         (∃ b, c₀.until b = Except.ok c))) := by
  induction h with
  | base t => simp [cue]
  | rep c i c' hc hok ih =>
      cases hstage : c.stage with
      | oneShot =>
          simp [Cue.repeats, hstage] at hok
          subst hok
          simp
      | repeating => simp [Cue.repeats, hstage] at hok
      | terminated => simp [Cue.repeats, hstage] at hok
  | count c n c' hc hok ih =>
      cases hstage : c.stage with
      | oneShot => simp [Cue.times, hstage] at hok
      | repeating =>
          have hok' := hok
          simp [Cue.times, hstage] at hok'
          subst hok'
          obtain ⟨hi, _, _⟩ := (stage_eq_repeating c).mp hstage
          have hne : c.interval ≠ none := fun hn => by simp [hn] at hi
          refine ⟨by simp, ?_, ?_⟩
          · intro hcontra
            exact absurd hcontra hne
          · intro _
            exact ⟨c, hc, hstage, rfl, rfl, Or.inl ⟨n, hok⟩⟩
      | terminated => simp [Cue.times, hstage] at hok
  | boundary c b c' hc hok ih =>
      cases hstage : c.stage with
      | oneShot => simp [Cue.until, hstage] at hok
      | repeating =>
          have hok' := hok
          simp [Cue.until, hstage] at hok'
          subst hok'
          obtain ⟨hi, _, _⟩ := (stage_eq_repeating c).mp hstage
          have hne : c.interval ≠ none := fun hn => by simp [hn] at hi
          refine ⟨by simp, ?_, ?_⟩
          · intro hcontra
            exact absurd hcontra hne
          · intro _
            exact ⟨c, hc, hstage, rfl, rfl, Or.inr ⟨b, hok⟩⟩
      | terminated => simp [Cue.until, hstage] at hok

theorem chain_cue_invariant_witness :
    (¬((⟨0, some 100, some 3, none⟩ : Cue).maxCount.isSome = true ∧
      (⟨0, some 100, some 3, none⟩ : Cue).untilTime.isSome = true)) ∧
    ((⟨0, some 100, some 3, none⟩ : Cue).interval = none →
      (⟨0, some 100, some 3, none⟩ : Cue).maxCount = none ∧
      (⟨0, some 100, some 3, none⟩ : Cue).untilTime = none) ∧
    (((⟨0, some 100, some 3, none⟩ : Cue).maxCount.isSome = true ∨
      (⟨0, some 100, some 3, none⟩ : Cue).untilTime.isSome = true) →
      ∃ c₀ : Cue, Chained c₀ ∧ c₀.stage = Stage.repeating ∧
        c₀.startTime = (⟨0, some 100, some 3, none⟩ : Cue).startTime ∧
        c₀.interval = (⟨0, some 100, some 3, none⟩ : Cue).interval ∧
        ((∃ n, c₀.times n = Except.ok (⟨0, some 100, some 3, none⟩ : Cue)) ∨
         (∃ b, c₀.until b =
            Except.ok (⟨0, some 100, some 3, none⟩ : Cue)))) :=
  chain_cue_invariant ⟨0, some 100, some 3, none⟩
    (Chained.count ⟨0, some 100, none, none⟩ 3 ⟨0, some 100, some 3, none⟩
      (Chained.rep (cue 0) 100 ⟨0, some 100, none, none⟩ (Chained.base 0) rfl)
      rfl)

end Cuesheet

namespace Cuesheet

/-- C2: a repeating cue with `startTime = s`, `interval = i > 0` and no
terminator, given a single advance step from `s - 1` to `s + 4.5·i` with
no prior firing state, fires exactly 5 times, at nominal tick times
`s, s+i, s+2i, s+3i, s+4i`, in strictly chronological order; the repeat
state is seeded with `lastFireTime = s - i`, so the first fire lands
exactly on `s`. -/
theorem repeat_catchup_five_ticks (s i : Time) (id : Nat) (hi : 0 < i) :
    ((⟨s - 1, true, [(id, ⟨s, some i, none, none⟩)], [], []⟩ : Sched).advance
        (s + 4.5 * i)).2 =
      [⟨id, s⟩, ⟨id, s + i⟩, ⟨id, s + 2 * i⟩, ⟨id, s + 3 * i⟩,
        ⟨id, s + 4 * i⟩] ∧
    List.Chain' (· < ·) [s, s + i, s + 2 * i, s + 3 * i, s + 4 * i] ∧
    seedSt ⟨s, some i, none, none⟩ i [] id = ⟨s - i, 0⟩ := by
  refine ⟨?_, ?_, rfl⟩
  · rw [advance_events_of_playing _ _ rfl]
    simp only [processCues]
    rw [processRepeatingCue_run _ _ _ _ _ _ hi (by push_neg; nlinarith)
      (by intro e he; simp at he)]
    have hseed : seedSt ⟨s, some i, none, none⟩ i [] id = ⟨s - i, 0⟩ := rfl
    have hn : nIter i (none : Option Time) (none : Option Nat) (s + 4.5 * i)
        ⟨s - i, 0⟩ = 5 := by
      simp only [nIter, nWindow, minE, RState.lastFireTime]
      have hq : (s + 4.5 * i - (s - i)) / i = 5.5 := by
        field_simp
        ring
      rw [hq]
      norm_num
      rfl
    rw [hseed, hn]
    simp only [show List.range 5 = [0, 1, 2, 3, 4] from rfl, List.map_cons,
      List.map_nil, List.cons.injEq, Event.mk.injEq, RState.lastFireTime]
    norm_num
    and_intros <;> first | trivial | ring
  · simp only [List.chain'_cons, List.chain'_singleton, and_true]
    and_intros <;> linarith

theorem repeat_catchup_five_ticks_witness :
    ((⟨(1 : Time) - 1, true, [(0, ⟨1, some 2, none, none⟩)], [], []⟩ :
        Sched).advance ((1 : Time) + 4.5 * 2)).2 =
      [⟨0, 1⟩, ⟨0, 1 + 2⟩, ⟨0, 1 + 2 * 2⟩, ⟨0, 1 + 3 * 2⟩, ⟨0, 1 + 4 * 2⟩] ∧
    List.Chain' (· < ·)
      [(1 : Time), 1 + 2, 1 + 2 * 2, 1 + 3 * 2, 1 + 4 * 2] ∧
    seedSt ⟨1, some 2, none, none⟩ 2 [] 0 = ⟨1 - 2, 0⟩ :=
  repeat_catchup_five_ticks 1 2 0 (by norm_num)

theorem seek_time (sc : Sched) (t : Time) : (sc.seek t).time = t := by
  unfold Sched.seek
  split <;> rfl

theorem seek_listeners (sc : Sched) (t : Time) :
    (sc.seek t).listeners = sc.listeners := by
  unfold Sched.seek
  split <;> rfl

theorem seek_rs_of_forward (sc : Sched) (t : Time) (h : sc.time ≤ t) :
    (sc.seek t).repeatState = sc.repeatState := by
  unfold Sched.seek
  rw [if_neg (not_lt.mpr h)]

/-- Repeating-cue accounting over any operation sequence free of backward
seeks: total fires equal the recorded count increase, the count never
decreases, and a count cap is never exceeded. -/
theorem run_repeat_cap (id : Nat) (c : Cue) (i : Time)
    (hint : c.interval = some i) (hi : 0 < i) :
    ∀ (acts : List Act) (sc : Sched),
    (id, c) ∈ sc.listeners → (sc.listeners.map Prod.fst).Nodup →
    NoBackwardSeek sc acts →
    countId id (run sc acts).2 =
      rsCount (run sc acts).1.repeatState id - rsCount sc.repeatState id ∧
    rsCount sc.repeatState id ≤ rsCount (run sc acts).1.repeatState id ∧
    (∀ m, c.maxCount = some m →
      rsCount (run sc acts).1.repeatState id ≤
        max (rsCount sc.repeatState id) m) := by
  intro acts
  induction acts with
  | nil =>
      intro sc _ _ _
      exact ⟨by simp [run, countId], le_refl _, fun m _ => by simp [run]⟩
  | cons a rest ih =>
      intro sc hmem hnodup hnb
      simp only [NoBackwardSeek] at hnb
      obtain ⟨hcond, hnb'⟩ := hnb
      simp only [run, countId_append]
      cases a with
      | play =>
          simp only [applyAct] at hnb' ⊢
          obtain ⟨g1, g2, g3⟩ := ih sc.play hmem hnodup hnb'
          rw [show sc.play.repeatState = sc.repeatState from rfl] at g1 g2 g3
          rw [countId_zero id [] (by simp)]
          exact ⟨by rw [g1]; omega, g2, g3⟩
      | pause =>
          simp only [applyAct] at hnb' ⊢
          obtain ⟨g1, g2, g3⟩ := ih sc.pause hmem hnodup hnb'
          rw [show sc.pause.repeatState = sc.repeatState from rfl] at g1 g2 g3
          rw [countId_zero id [] (by simp)]
          exact ⟨by rw [g1]; omega, g2, g3⟩
      | seek t =>
          simp only [applyAct] at hnb' ⊢
          obtain ⟨g1, g2, g3⟩ := ih (sc.seek t)
            (by rw [seek_listeners]; exact hmem)
            (by rw [seek_listeners]; exact hnodup) hnb'
          rw [seek_rs_of_forward sc t hcond] at g1 g2 g3
          rw [countId_zero id [] (by simp)]
          exact ⟨by rw [g1]; omega, g2, g3⟩
      | advance T =>
          simp only [applyAct] at hnb' ⊢
          by_cases hp : sc.playing = true
          · obtain ⟨h1, h2, h3, _⟩ := processCues_repeat sc.time T id c i hint
              hi sc.listeners sc.firedOneShots sc.repeatState hmem hnodup
            obtain ⟨g1, g2, g3⟩ := ih (sc.advance T).1
              (by rw [advance_listeners]; exact hmem)
              (by rw [advance_listeners]; exact hnodup) hnb'
            rw [advance_rs_of_playing sc T hp] at g1 g2 g3
            rw [advance_events_of_playing sc T hp]
            refine ⟨?_, le_trans h2 g2, ?_⟩
            · rw [h1, g1]
              omega
            · intro m hm
              have := h3 m hm
              have := g3 m hm
              omega
          · have hadv : sc.advance T = (sc, []) := advance_not_playing sc T hp
            rw [hadv]
            dsimp only
            rw [hadv] at hnb'
            obtain ⟨g1, g2, g3⟩ := ih sc hmem hnodup hnb'
            rw [countId_zero id [] (by simp)]
            exact ⟨by rw [g1]; omega, g2, g3⟩

/-- Boundary-cap accounting over any operation sequence whatsoever: no
fire event of a boundary-capped repeating cue ever carries a nominal time
past its boundary. -/
theorem run_until_bound (id : Nat) (c : Cue) (i e : Time)
    (hint : c.interval = some i) (hi : 0 < i) (he : c.untilTime = some e) :
    ∀ (acts : List Act) (sc : Sched),
    (id, c) ∈ sc.listeners → (sc.listeners.map Prod.fst).Nodup →
    ∀ ev ∈ (run sc acts).2, ev.id = id → ev.nominal ≤ e := by
  intro acts
  induction acts with
  | nil => intro sc _ _ ev hev; simp [run] at hev
  | cons a rest ih =>
      intro sc hmem hnodup ev hev hevid
      simp only [run, List.mem_append] at hev
      cases a with
      | play =>
          rcases hev with hl | hr
          · simp [applyAct] at hl
          · exact ih sc.play hmem hnodup ev (by simpa [applyAct] using hr) hevid
      | pause =>
          rcases hev with hl | hr
          · simp [applyAct] at hl
          · exact ih sc.pause hmem hnodup ev (by simpa [applyAct] using hr) hevid
      | seek t =>
          rcases hev with hl | hr
          · simp [applyAct] at hl
          · exact ih (sc.seek t)
              (by rw [seek_listeners]; exact hmem)
              (by rw [seek_listeners]; exact hnodup) ev
              (by simpa [applyAct] using hr) hevid
      | advance T =>
          by_cases hp : sc.playing = true
          · rcases hev with hl | hr
            · obtain ⟨_, _, _, h4⟩ := processCues_repeat sc.time T id c i hint
                hi sc.listeners sc.firedOneShots sc.repeatState hmem hnodup
              refine h4 e he ev ?_ hevid
              rw [← advance_events_of_playing sc T hp]
              simpa [applyAct] using hl
            · exact ih (sc.advance T).1
                (by rw [advance_listeners]; exact hmem)
                (by rw [advance_listeners]; exact hnodup) ev
                (by simpa [applyAct] using hr) hevid
          · rcases hev with hl | hr
            · rw [show (applyAct sc (Act.advance T)).2 = [] from by
                simp [applyAct, advance_not_playing sc T hp]] at hl
              simp at hl
            · refine ih sc hmem hnodup ev ?_ hevid
              rw [show (applyAct sc (Act.advance T)).1 = sc from by
                simp [applyAct, advance_not_playing sc T hp]] at hr
              exact hr

/-- C3: `cue(0).repeats(100).times(3)` is the count-capped cue with
`maxCount = 3`; driving a playing scheduler that carries it straight to
virtual time 10000 fires it exactly 3 times, at nominal ticks 0, 100,
200; and in general a count-capped repeating cue with `maxCount = m` and
no recorded fire count never fires more than `m` times in total over any
sequence of advance steps. -/
theorem countCap_never_exceeded :
    ((cue 0).repeats 100 >>= fun r => r.times 3) =
      Except.ok ⟨0, some 100, some 3, none⟩ ∧
    ((cuesheet.on 0 ⟨0, some 100, some 3, none⟩).play.advance 10000).2 =
      [⟨0, 0⟩, ⟨0, 100⟩, ⟨0, 200⟩] ∧
    (∀ (sc : Sched) (id : Nat) (c : Cue) (i : Time) (m : Nat)
        (acts : List Act),
      (id, c) ∈ sc.listeners → (sc.listeners.map Prod.fst).Nodup →
      c.interval = some i → 0 < i → c.maxCount = some m →
      NoBackwardSeek sc acts →
      rsCount sc.repeatState id = 0 →
      countId id (run sc acts).2 ≤ m) := by
  refine ⟨rfl, ?_, ?_⟩
  · have h0 : (cuesheet.on 0 (⟨0, some 100, some 3, none⟩ : Cue)).play =
        ⟨0, true, [(0, ⟨0, some 100, some 3, none⟩)], [], []⟩ := by
      simp [cuesheet, Sched.on, Sched.play]
    rw [h0]
    rw [advance_events_of_playing _ _ rfl]
    simp only [processCues]
    rw [processRepeatingCue_run _ _ _ _ _ _ (by norm_num) (by norm_num)
      (by intro e he; simp at he)]
    have hseed : seedSt ⟨0, some 100, some 3, none⟩ 100 [] 0 = ⟨-100, 0⟩ := by
      simp [seedSt, rsGet]
    have hn : nIter 100 (none : Option Time) (some 3) 10000 ⟨-100, 0⟩ = 3 := by
      simp only [nIter, nWindow, minE]
      norm_num
    rw [hseed, hn]
    simp [processCues, List.range_succ]
    all_goals norm_num
  · intro sc id c i m acts hmem hnodup hint hi hm hnb hrs0
    obtain ⟨g1, _, g3⟩ := run_repeat_cap id c i hint hi acts sc hmem hnodup hnb
    have hcap := g3 m hm
    rw [hrs0] at hcap
    rw [g1, hrs0]
    omega

theorem countCap_never_exceeded_witness :
    countId 0 (run ⟨0, true, [(0, ⟨0, some 100, some 3, none⟩)], [], []⟩
      [Act.advance 10000, Act.advance 20000]).2 ≤ 3 :=
  countCap_never_exceeded.2.2
    ⟨0, true, [(0, ⟨0, some 100, some 3, none⟩)], [], []⟩
    0 ⟨0, some 100, some 3, none⟩ 100 3 [Act.advance 10000, Act.advance 20000]
    (by simp) (by simp) rfl (by norm_num) rfl (by simp [NoBackwardSeek]) rfl

/-- C4: `cue(0).repeats(100).until(cue(300))` captures the concrete
boundary timestamp `untilTime = 300` at construction; driving a playing
scheduler carrying it to virtual time 1000 fires it exactly 4 times, at
nominal ticks 0, 100, 200 and 300 — the tick landing exactly on the
boundary fires; and in general no fire event of a boundary-capped
repeating cue ever has a nominal time beyond its `untilTime`. -/
theorem untilCap_boundary :
    ((cue 0).repeats 100 >>= fun r => r.until (cue 300)) =
      Except.ok ⟨0, some 100, none, some 300⟩ ∧
    ((cuesheet.on 0 ⟨0, some 100, none, some 300⟩).play.advance 1000).2 =
      [⟨0, 0⟩, ⟨0, 100⟩, ⟨0, 200⟩, ⟨0, 300⟩] ∧
    (∀ (sc : Sched) (id : Nat) (c : Cue) (i e : Time) (acts : List Act),
      (id, c) ∈ sc.listeners → (sc.listeners.map Prod.fst).Nodup →
      c.interval = some i → 0 < i → c.untilTime = some e →
      ∀ ev ∈ (run sc acts).2, ev.id = id → ev.nominal ≤ e) := by
  refine ⟨rfl, ?_, ?_⟩
  · have h0 : (cuesheet.on 0 (⟨0, some 100, none, some 300⟩ : Cue)).play =
        ⟨0, true, [(0, ⟨0, some 100, none, some 300⟩)], [], []⟩ := by
      simp [cuesheet, Sched.on, Sched.play]
    rw [h0]
    rw [advance_events_of_playing _ _ rfl]
    simp only [processCues]
    rw [processRepeatingCue_run _ _ _ _ _ _ (by norm_num) (by norm_num)
      (by intro e he; simp at he; rw [← he]; norm_num)]
    have hseed : seedSt ⟨0, some 100, none, some 300⟩ 100 [] 0 = ⟨-100, 0⟩ := by
      simp [seedSt, rsGet]
    have hn : nIter 100 (some (300 : Time)) (none : Option Nat) 1000
        ⟨-100, 0⟩ = 4 := by
      simp only [nIter, nWindow, minE]
      norm_num
      all_goals rfl
    rw [hseed, hn]
    simp [processCues, List.range_succ]
    all_goals norm_num
  · intro sc id c i e acts hmem hnodup hint hi he
    exact run_until_bound id c i e hint hi he acts sc hmem hnodup

theorem untilCap_boundary_witness : (⟨0, 300⟩ : Event).nominal ≤ (300 : Time) :=
  untilCap_boundary.2.2 ((cuesheet.on 0 ⟨0, some 100, none, some 300⟩).play) 0
    ⟨0, some 100, none, some 300⟩ 100 300 [Act.advance 1000]
    (by simp [cuesheet, Sched.on, Sched.play])
    (by simp [cuesheet, Sched.on, Sched.play]) rfl (by norm_num) rfl
    ⟨0, 300⟩
    (by
      simp only [run, applyAct, List.append_nil]
      rw [untilCap_boundary.2.1]
      simp)
    rfl

end Cuesheet

namespace Cuesheet

/-- C5: a backward seek (`targetTime < virtualTime`) relocates the clock
and clears `firedOneShots` and `repeatState` entirely (listeners and play
state untouched), so every cue can fire again from scratch; concretely, a
one-shot cue at `t = 100` fired once by an advance to 200, then
`seek(0)` and a second advance to 200, fires again — 2 fires in total
over the two passes. -/
theorem backward_seek_resets :
    (∀ (sc : Sched) (target : Time), target < sc.time →
      (sc.seek target).time = target ∧
      (sc.seek target).firedOneShots = [] ∧
      (sc.seek target).repeatState = [] ∧
      (sc.seek target).listeners = sc.listeners ∧
      (sc.seek target).playing = sc.playing) ∧
    (countId 0 ((cuesheet.on 0 (cue 100)).play.advance 200).2 +
      countId 0
        ((((cuesheet.on 0 (cue 100)).play.advance 200).1.seek 0).advance
          200).2 = 2) := by
  constructor
  · intro sc target h
    unfold Sched.seek
    rw [if_pos h]
    exact ⟨rfl, rfl, rfl, rfl, rfl⟩
  · have h0 : (cuesheet.on 0 (cue 100)).play =
        ⟨0, true, [(0, cue 100)], [], []⟩ := by
      simp [cuesheet, Sched.on, Sched.play]
    have h1 : (⟨0, true, [(0, cue 100)], [], []⟩ : Sched).advance 200 =
        (⟨200, true, [(0, cue 100)], [0], []⟩, [⟨0, 100⟩]) := by
      unfold Sched.advance
      norm_num [processCues, cue]
    have h2 : (⟨200, true, [(0, cue 100)], [0], []⟩ : Sched).seek 0 =
        ⟨0, true, [(0, cue 100)], [], []⟩ := by
      unfold Sched.seek
      norm_num
    rw [h0, h1, h2, h1]
    simp [countId]

/-- C6: a forward (or in-place) seek relocates the clock and leaves
`firedOneShots`, `repeatState` and the listener registry unchanged; a
seek invokes no callbacks at all; and a one-shot cue at `t = 100` skipped
over by `seek(500)` is not fired by any subsequent advance from 500. -/
theorem forward_seek_silent :
    (∀ (sc : Sched) (target : Time), sc.time ≤ target →
      (sc.seek target).time = target ∧
      (sc.seek target).firedOneShots = sc.firedOneShots ∧
      (sc.seek target).repeatState = sc.repeatState ∧
      (sc.seek target).listeners = sc.listeners) ∧
    (∀ (sc : Sched) (target : Time), (applyAct sc (Act.seek target)).2 = []) ∧
    (∀ (T : Time),
      countId 0 ((((cuesheet.on 0 (cue 100)).seek 500).play).advance T).2 =
        0) := by
  refine ⟨?_, fun _ _ => rfl, ?_⟩
  · intro sc target h
    unfold Sched.seek
    rw [if_neg (not_lt.mpr h)]
    exact ⟨rfl, rfl, rfl, rfl⟩
  · intro T
    have h0 : ((cuesheet.on 0 (cue 100)).seek 500).play =
        ⟨500, true, [(0, cue 100)], [], []⟩ := by
      norm_num [cuesheet, Sched.on, Sched.seek, Sched.play]
    rw [h0, advance_events_of_playing _ _ rfl]
    simp only [processCues, cue]
    rw [if_neg (by rintro ⟨_, h2, _⟩; norm_num at h2)]
    simp [processCues, countId]

/-- A one-shot cue starting at time 0 on a scheduler whose clock never
goes below 0 produces no fire events under any valid operation sequence:
firing would need `prevTime < 0`. -/
theorem run_oneShotZero_silent (id : Nat) (c : Cue)
    (hint : c.interval = none) (hstart : c.startTime = 0) :
    ∀ (acts : List Act) (sc : Sched),
    (id, c) ∈ sc.listeners → (sc.listeners.map Prod.fst).Nodup →
    0 ≤ sc.time → ValidActs sc acts →
    countId id (run sc acts).2 = 0 := by
  intro acts
  induction acts with
  | nil => intro sc _ _ _ _; simp [run, countId]
  | cons a rest ih =>
      intro sc hmem hnodup htime hvalid
      simp only [ValidActs] at hvalid
      obtain ⟨hcond, hvalid'⟩ := hvalid
      simp only [run, countId_append]
      cases a with
      | play =>
          simp only [applyAct] at hvalid' ⊢
          rw [countId_zero id [] (by simp), ih sc.play hmem hnodup htime hvalid']
      | pause =>
          simp only [applyAct] at hvalid' ⊢
          rw [countId_zero id [] (by simp), ih sc.pause hmem hnodup htime hvalid']
      | seek t =>
          simp only [applyAct] at hvalid' ⊢
          rw [countId_zero id [] (by simp)]
          rw [ih (sc.seek t)
            (by rw [seek_listeners]; exact hmem)
            (by rw [seek_listeners]; exact hnodup)
            (by rw [seek_time]; exact hcond) hvalid']
      | advance T =>
          simp only [applyAct] at hvalid' ⊢
          by_cases hp : sc.playing = true
          · obtain ⟨hcnt, _⟩ := processCues_oneShot sc.time T id c hint
              sc.listeners sc.firedOneShots sc.repeatState hmem hnodup
            have hzero : countId id (sc.advance T).2 = 0 := by
              rw [advance_events_of_playing sc T hp, hcnt, hstart,
                if_neg (by rintro ⟨_, h2, _⟩; exact absurd htime (not_le.mpr h2))]
            rw [hzero]
            rw [ih (sc.advance T).1
              (by rw [advance_listeners]; exact hmem)
              (by rw [advance_listeners]; exact hnodup)
              (by rw [advance_time_of_playing sc T hp]; exact le_trans htime hcond)
              hvalid']
          · rw [advance_not_playing sc T hp] at hvalid' ⊢
            rw [countId_zero id [] (by simp), ih sc hmem hnodup htime hvalid']

/-- C10: on a freshly created scheduler (clock at 0, paused), a one-shot
cue with `startTime = 0` never fires under any sequence of play, pause,
forward advance, and non-negative seek operations, since a one-shot fire
needs `prevTime < startTime` and the clock never drops below 0; by
contrast a repeating cue with `startTime = 0` fires its first tick, with
nominal time 0, on the first advance while playing. -/
theorem oneShot_at_zero_never_fires :
    (∀ (L : List (Nat × Cue)) (id : Nat) (c : Cue) (acts : List Act),
      (id, c) ∈ L → (L.map Prod.fst).Nodup →
      c.interval = none → c.startTime = 0 →
      ValidActs ⟨0, false, L, [], []⟩ acts →
      countId id (run ⟨0, false, L, [], []⟩ acts).2 = 0) ∧
    (∀ (id : Nat) (i T : Time), 0 < i → 0 ≤ T →
      (((cuesheet.on id ⟨0, some i, none, none⟩).play).advance T).2.head? =
        some ⟨id, 0⟩) := by
  constructor
  · intro L id c acts hmem hnodup hint hstart hvalid
    exact run_oneShotZero_silent id c hint hstart acts _ hmem hnodup
      (le_refl 0) hvalid
  · intro id i T hi hT
    have h0 : (cuesheet.on id (⟨0, some i, none, none⟩ : Cue)).play =
        ⟨0, true, [(id, ⟨0, some i, none, none⟩)], [], []⟩ := by
      simp [cuesheet, Sched.on, Sched.play]
    rw [h0, advance_events_of_playing _ _ rfl]
    simp only [processCues]
    rw [processRepeatingCue_run _ _ _ _ _ _ hi (by push_neg; exact hT)
      (by intro e he; simp at he)]
    have hseed : seedSt ⟨0, some i, none, none⟩ i [] id = ⟨0 - i, 0⟩ := rfl
    rw [hseed]
    have hn1 : 1 ≤ nIter i (none : Option Time) (none : Option Nat) T
        ⟨0 - i, 0⟩ := by
      simp only [nIter]
      exact (nWindow_pos_iff i (0 - i) (minE T none) hi).mpr
        (by simp [minE]; linarith)
    obtain ⟨n', hn'⟩ : ∃ n', nIter i (none : Option Time) (none : Option Nat) T
        ⟨0 - i, 0⟩ = n' + 1 :=
      ⟨nIter i (none : Option Time) (none : Option Nat) T ⟨0 - i, 0⟩ - 1,
        by omega⟩
    rw [hn', List.range_succ_eq_map]
    simp only [List.map_cons, List.head?_cons, List.cons_append,
      List.head?_cons, RState.lastFireTime, Option.some.injEq, Event.mk.injEq]
    norm_num

theorem oneShot_at_zero_never_fires_witness :
    countId 0 (run ⟨0, false, [(0, cue 0)], [], []⟩
      [Act.play, Act.advance 5, Act.seek 0]).2 = 0 ∧
    (((cuesheet.on 0 ⟨0, some 1, none, none⟩).play).advance 2).2.head? =
      some ⟨0, 0⟩ :=
  ⟨oneShot_at_zero_never_fires.1 [(0, cue 0)] 0 (cue 0)
      [Act.play, Act.advance 5, Act.seek 0] (by simp) (by simp) rfl rfl
      (by refine ⟨trivial, ?_, ?_, trivial⟩ <;>
        norm_num [applyAct, Sched.play, Sched.advance, processCues, cue]),
   oneShot_at_zero_never_fires.2 0 1 2 (by norm_num) (by norm_num)⟩

end Cuesheet

namespace Cuesheet

theorem runCbs_all_ok (a : List Bool) (ha : ∀ x ∈ a, x = true) :
    runCbs a = (a.length, false) := by
  induction a with
  | nil => rfl
  | cons x rest ih =>
      have hx : x = true := ha x (by simp)
      simp only [runCbs, hx, if_true]
      rw [ih fun y hy => ha y (by simp [hy])]
      simp [Nat.add_comm]

theorem runCbs_throw (a b : List Bool) (ha : ∀ x ∈ a, x = true) :
    runCbs (a ++ false :: b) = (a.length + 1, true) := by
  induction a with
  | nil => rfl
  | cons x rest ih =>
      have hx : x = true := ha x (by simp)
      subst hx
      show runCbs (true :: (rest ++ false :: b)) =
        ((true :: rest).length + 1, true)
      simp only [runCbs, if_true]
      rw [ih fun y hy => ha y (by simp [hy])]
      simp [Nat.add_comm]

/-- C7 (counterexample): with two callbacks on a one-shot cue at `t = 10`
(the first throws) and a second cue at `t = 20`, the frame from 0 to 30
invokes only the first callback — the sibling callback is not invoked
(the event records 1 of 2), the second cue is never processed (no event),
and the exception escapes the resolution loop. -/
theorem callback_not_isolated_counterexample :
    processCuesE 0 30 [(0, cue 10, [false, true]), (1, cue 20, [true])]
      [] [] = ([0], [], [(0, 10, 1)], true) ∧
    1 < ([false, true] : List Bool).length := by
  constructor
  · norm_num [processCuesE, runCbs, cue]
  · norm_num

/-- C7 (amended): a throwing callback is not isolated: when a one-shot
cue fires with callbacks `a ++ false :: b` (those in `a` return, the next
throws), exactly the first `a.length + 1` callbacks are invoked — the
remaining siblings `b` and all subsequent cues of the frame are skipped,
and the exception escapes the frame; but the cue was marked fired before
its callbacks ran, so the scheduler's bookkeeping still records the
fire. -/
theorem callback_throw_aborts_frame (prev T : Time) (id : Nat) (c : Cue)
    (a b : List Bool) (rest : List (Nat × Cue × List Bool))
    (fired : List Nat) (rs : List (Nat × RState))
    (hint : c.interval = none)
    (ha : ∀ x ∈ a, x = true)
    (hcond : id ∉ fired ∧ prev < c.startTime ∧ c.startTime ≤ T) :
    processCuesE prev T ((id, c, a ++ false :: b) :: rest) fired rs =
      (id :: fired, rs, [(id, c.startTime, a.length + 1)], true) := by
  simp only [processCuesE, hint]
  rw [if_pos hcond, runCbs_throw a b ha]
  simp

theorem callback_throw_aborts_frame_witness :
    processCuesE 0 30 [(0, cue 10, ([] : List Bool) ++ false :: [true])]
      [] [] =
      ([0], [], [(0, (cue 10).startTime, ([] : List Bool).length + 1)],
        true) :=
  callback_throw_aborts_frame 0 30 0 (cue 10) [] [true] [] [] [] rfl
    (by simp) ⟨by simp, by norm_num [cue], by norm_num [cue]⟩

end Cuesheet

namespace Cuesheet

theorem backward_seek_resets_witness :
    ((⟨200, true, [(0, cue 100)], [0], []⟩ : Sched).seek 0).time = 0 ∧
    ((⟨200, true, [(0, cue 100)], [0], []⟩ : Sched).seek 0).firedOneShots =
      [] ∧
    ((⟨200, true, [(0, cue 100)], [0], []⟩ : Sched).seek 0).repeatState =
      [] ∧
    ((⟨200, true, [(0, cue 100)], [0], []⟩ : Sched).seek 0).listeners =
      [(0, cue 100)] ∧
    ((⟨200, true, [(0, cue 100)], [0], []⟩ : Sched).seek 0).playing = true :=
  backward_seek_resets.1 ⟨200, true, [(0, cue 100)], [0], []⟩ 0 (by norm_num)

theorem forward_seek_silent_witness :
    ((cuesheet.seek 500).time = 500 ∧
      (cuesheet.seek 500).firedOneShots = cuesheet.firedOneShots ∧
      (cuesheet.seek 500).repeatState = cuesheet.repeatState ∧
      (cuesheet.seek 500).listeners = cuesheet.listeners) ∧
    countId 0 ((((cuesheet.on 0 (cue 100)).seek 500).play).advance 510).2 =
      0 :=
  ⟨forward_seek_silent.1 cuesheet 500 (by norm_num [cuesheet]),
   forward_seek_silent.2.2 510⟩

end Cuesheet
